import Mathlib

/-!
Shallow embedding of the producer/consumer prime-checking pipeline of the
multiprocessing workshop notebook: the serial `check_prime` cell, the queue
worker `check_prime` cell (two flags, two queues), and the coordinator cell
that launches `NBR_PROCESSES` workers, fills `possible_primes_queue`, appends
one `FLAG_ALL_DONE` per worker, and drains `definite_primes_queue` until every
worker has reported `FLAG_WORKER_FINISHED_PROCESSING`.
-/

namespace PrimePipeline

/-- A value travelling through one of the `multiprocessing` queues: a Python
`int` (a candidate, or a confirmed prime) or a Python `bytes` literal (one of
the two reserved flags). -/
inductive QVal : Type
  | int (n : Nat)
  | bytes (s : String)
deriving DecidableEq

/-- Python `==` on queue values: two ints compare by value, two bytes literals
compare by content, and an `int` never compares equal to a `bytes` value
(in Python, `int == bytes` is `False`, never an error). -/
def pyEq : QVal → QVal → Bool
  | QVal.int a, QVal.int b => a == b
  | QVal.bytes a, QVal.bytes b => a == b
  | _, _ => false

/-- `FLAG_ALL_DONE = b"WORK_FINISHED"`: the stop sentinel the coordinator puts
on the work queue, once per worker. -/
def FLAG_ALL_DONE : QVal := QVal.bytes "WORK_FINISHED"

/-- `FLAG_WORKER_FINISHED_PROCESSING = b"WORKER_FINISHED_PROCESSING"`: the
completion sentinel each worker puts on the result queue before breaking. -/
def FLAG_WORKER_FINISHED_PROCESSING : QVal := QVal.bytes "WORKER_FINISHED_PROCESSING"

/-- Fuel-driven integer square root (digit-by-digit recursion on `n / 4`),
written with structural recursion so the kernel can evaluate it on concrete
inputs.  `isqrtAux fuel n` equals `Nat.sqrt n` whenever `n ≤ fuel`. -/
def isqrtAux : Nat → Nat → Nat
  | 0, _ => 0
  | fuel + 1, n =>
      if n = 0 then 0
      else
        let r := 2 * isqrtAux fuel (n / 4)
        if (r + 1) * (r + 1) ≤ n then r + 1 else r

/-- Integer square root; proved equal to `Nat.sqrt` below. -/
def isqrt (n : Nat) : Nat := isqrtAux n n

/-- The odd trial divisors `range(3, int(math.sqrt(n)) + 1, 2)` of the Python
code: `3, 5, ...` up to the integer square root of `n`.  `int(math.sqrt(n))`
is modelled as the exact integer square root; the two agree wherever the float
square root is exact to within rounding, in particular on every range the
notebook runs. -/
def trial_divisors (n : Nat) : List Nat :=
  List.range' 3 ((isqrt n + 1 - 3 + 1) / 2) 2

/-- `check_prime` exactly as written in the serial cell (and repeated verbatim
in the Pool cell): reject every even `n`, then trial-divide by the odd numbers
up to `int(math.sqrt(n))`, returning `False` on the first divisor found. -/
def check_prime (n : Nat) : Bool :=
  if n % 2 == 0 then false
  else (trial_divisors n).all fun i => n % i != 0

/-- Binary-split evaluation of the trial-division loop: `tdSplit fuel n k i`
tests the `k` divisors `i, i + 2, ..., i + 2*(k-1)` against `n`.  Logically
equal to the left-to-right loop of `check_prime` (proved below); its balanced
recursion keeps kernel evaluation shallow on concrete inputs. -/
def tdSplit : Nat → Nat → Nat → Nat → Bool
  | 0, _, _, _ => true
  | _ + 1, _, 0, _ => true
  | _ + 1, n, 1, i => n % i != 0
  | fuel + 1, n, k + 2, i =>
      tdSplit fuel n ((k + 2) / 2) i &&
        tdSplit fuel n ((k + 2) - (k + 2) / 2) (i + 2 * ((k + 2) / 2))

/-- Kernel-friendly form of `check_prime`; proved equal to `check_prime`. -/
def check_prime_fast (n : Nat) : Bool :=
  if n % 2 == 0 then false
  else tdSplit ((isqrt n + 1 - 3 + 1) / 2) n ((isqrt n + 1 - 3 + 1) / 2) 3

/-- `number_range = range(lo, hi)`, the candidates, in ascending order. -/
def number_range (lo hi : Nat) : List Nat := List.range' lo (hi - lo)

/-- The serial cell's loop: `for possible_prime in number_range:` appends
`possible_prime` to `primes` whenever `check_prime(possible_prime)`. -/
def serial_primes (lo hi : Nat) : List Nat := (number_range lo hi).filter check_prime

/-- An item of the work queue, as the queue worker's test
`n == FLAG_ALL_DONE` discriminates it: a candidate integer, or the stop flag.
(The discrimination is exact because `pyEq (QVal.int n) FLAG_ALL_DONE` is
`false` for every `n`; the coordinator enqueues nothing else.) -/
inductive WItem : Type
  | cand (n : Nat)
  | stop
deriving DecidableEq

/-- An item of the result queue, as the coordinator's test
`new_result == FLAG_WORKER_FINISHED_PROCESSING` discriminates it: a confirmed
prime, or a worker's completion flag. -/
inductive ROut : Type
  | prime (n : Nat)
  | done
deriving DecidableEq

/-- The queue version of `check_prime` (the worker body): given the finite
list of items this worker pops from `possible_primes_queue`, in order, return
the list of items it puts on `definite_primes_queue`, in order.  On the stop
flag it puts the completion flag and breaks, consuming nothing further; on an
even candidate it `continue`s; otherwise the `for`/`else` puts the candidate
exactly when no odd trial divisor divides it. -/
def worker : List WItem → List ROut
  | [] => []
  | WItem.stop :: _ => [ROut.done]
  | WItem.cand n :: rest =>
      if n % 2 == 0 then worker rest
      else if (trial_divisors n).all (fun i => n % i != 0) then
        ROut.prime n :: worker rest
      else worker rest

/-- Contents of `possible_primes_queue` after the coordinator's two enqueue
loops: every candidate of `number_range`, in order, then one `FLAG_ALL_DONE`
per worker (`W = NBR_PROCESSES`). -/
def possible_primes_queue (lo hi W : Nat) : List WItem :=
  (number_range lo hi).map WItem.cand ++ List.replicate W WItem.stop

/-- The coordinator's drain loop, as a function of the order `t` in which
`definite_primes_queue.get()` delivers items: count completion flags, break
as soon as the count reaches `W = NBR_PROCESSES`, append every other item to
`primes`.  Returns the final counter and the accumulated `primes`; `none`
models a `get()` that blocks forever (deadlock). -/
def drainLoop : List ROut → Nat → Nat → List Nat → Option (Nat × List Nat)
  | [], _, _, _ => none
  | ROut.done :: rest, W, cnt, acc =>
      if cnt + 1 = W then some (cnt + 1, acc) else drainLoop rest W (cnt + 1) acc
  | ROut.prime n :: rest, W, cnt, acc => drainLoop rest W cnt (acc ++ [n])

/-- The full finite sequence a worker pops when it is assigned the candidates
`assigned` and then one stop flag, fed to the worker body. -/
def workerTrace (assigned : List Nat) : List ROut :=
  worker (assigned.map WItem.cand ++ [WItem.stop])

/-- The integers (confirmed primes) occurring in a result-queue trace. -/
def primesOf (t : List ROut) : List Nat :=
  t.filterMap fun r => match r with | ROut.prime n => some n | ROut.done => none

/-- Total number of completion flags in a family of worker outputs. -/
def dones (ls : List (List ROut)) : Nat := (ls.map (List.count ROut.done)).sum

/-- `Merge ls t`: `t` is an interleaving of the lists in `ls` that preserves
the order within each list.  This is exactly the guarantee a FIFO queue with
several producers gives the single consumer: each producer's puts arrive in
its own order, interleaved arbitrarily across producers. -/
inductive Merge : List (List ROut) → List ROut → Prop
  | nil (ls : List (List ROut)) : (∀ l ∈ ls, l = []) → Merge ls []
  | cons (pre post : List (List ROut)) (rest t : List ROut) (x : ROut) :
      Merge (pre ++ rest :: post) t → Merge (pre ++ (x :: rest) :: post) (x :: t)

/-- A run of the queue pipeline on `[lo, hi)` with `W` workers.  `sched`
records which candidates each worker popped: the work queue is FIFO and the
stop flags are enqueued after every candidate, so each worker pops some of the
candidates and then exactly one stop flag, and each candidate is popped by
exactly one worker.  `t` is the order in which the coordinator receives the
items of `definite_primes_queue`: an order-preserving interleaving of the
individual worker outputs. -/
def PipelineRun (lo hi W : Nat) (sched : List (List Nat)) (t : List ROut) : Prop :=
  sched.length = W ∧ sched.flatten.Perm (number_range lo hi) ∧
    Merge (sched.map workerTrace) t

/-! ### Basic facts about the embedded functions -/

theorem isqrtAux_eq_sqrt : ∀ fuel n : Nat, n ≤ fuel → isqrtAux fuel n = Nat.sqrt n := by
  intro fuel
  induction fuel with
  | zero =>
      intro n hn
      have : n = 0 := Nat.le_zero.mp hn
      subst this
      simp [isqrtAux]
  | succ fuel ih =>
      intro n hn
      by_cases h0 : n = 0
      · subst h0; simp [isqrtAux]
      · have hdiv : n / 4 ≤ fuel := by omega
        have hrec := ih (n / 4) hdiv
        simp only [isqrtAux, h0, if_false, hrec]
        have h1 : (n / 4).sqrt * (n / 4).sqrt ≤ n / 4 := Nat.sqrt_le _
        have h2 : n / 4 < ((n / 4).sqrt + 1) * ((n / 4).sqrt + 1) := Nat.lt_succ_sqrt _
        have hm4 : n % 4 < 4 := Nat.mod_lt _ (by omega)
        have hmod : 4 * (n / 4) + n % 4 = n := Nat.div_add_mod n 4
        have h3 : 4 * ((n / 4).sqrt * (n / 4).sqrt) ≤ 4 * (n / 4) :=
          Nat.mul_le_mul_left 4 h1
        have h4 : 4 * (n / 4 + 1) ≤ 4 * (((n / 4).sqrt + 1) * ((n / 4).sqrt + 1)) :=
          Nat.mul_le_mul_left 4 (Nat.succ_le_of_lt h2)
        by_cases hcase : (2 * (n / 4).sqrt + 1) * (2 * (n / 4).sqrt + 1) ≤ n
        · rw [if_pos hcase, Nat.eq_sqrt]
          refine ⟨hcase, ?_⟩
          calc n < 4 * (n / 4 + 1) := by omega
            _ ≤ 4 * (((n / 4).sqrt + 1) * ((n / 4).sqrt + 1)) := h4
            _ = (2 * (n / 4).sqrt + 1 + 1) * (2 * (n / 4).sqrt + 1 + 1) := by ring
        · rw [if_neg hcase, Nat.eq_sqrt]
          refine ⟨?_, Nat.lt_of_not_le hcase⟩
          calc 2 * (n / 4).sqrt * (2 * (n / 4).sqrt)
              = 4 * ((n / 4).sqrt * (n / 4).sqrt) := by ring
            _ ≤ n := by omega

theorem isqrt_eq_sqrt (n : Nat) : isqrt n = Nat.sqrt n :=
  isqrtAux_eq_sqrt n n (Nat.le_refl n)

theorem tdSplit_eq : ∀ fuel n k i, k ≤ fuel →
    tdSplit fuel n k i = (List.range' i k 2).all fun j => n % j != 0 := by
  intro fuel
  induction fuel with
  | zero =>
      intro n k i hk
      have hk0 : k = 0 := by omega
      subst hk0
      simp [tdSplit]
  | succ fuel ih =>
      intro n k i hk
      match k with
      | 0 => simp [tdSplit]
      | 1 => simp [tdSplit, List.range']
      | k + 2 =>
          have h1 : (k + 2) / 2 ≤ fuel := by omega
          have h2 : (k + 2) - (k + 2) / 2 ≤ fuel := by omega
          rw [tdSplit, ih n ((k + 2) / 2) i h1,
            ih n ((k + 2) - (k + 2) / 2) (i + 2 * ((k + 2) / 2)) h2,
            ← List.all_append, List.range'_append]
          congr 2
          omega

theorem check_prime_eq_fast : check_prime = check_prime_fast := by
  funext n
  rw [check_prime, check_prime_fast, trial_divisors,
    tdSplit_eq _ n _ 3 (Nat.le_refl _)]

/-- The worker body on a candidate: it forwards the candidate exactly when
`check_prime` accepts it, then continues with the remaining items. -/
theorem worker_cand (n : Nat) (rest : List WItem) :
    worker (WItem.cand n :: rest) =
      (if check_prime n then [ROut.prime n] else []) ++ worker rest := by
  rw [worker, check_prime]
  by_cases h2 : (n % 2 == 0) = true
  · simp [h2]
  · by_cases hall : ((trial_divisors n).all fun i => n % i != 0) = true
    · simp [h2, hall]
    · simp [h2, hall]

/-- A worker assigned the candidates `assigned` and then one stop flag puts
exactly the accepted candidates, in order, and then one completion flag. -/
theorem workerTrace_eq (assigned : List Nat) :
    workerTrace assigned =
      (assigned.filter check_prime).map ROut.prime ++ [ROut.done] := by
  induction assigned with
  | nil => rfl
  | cons a l ih =>
      rw [workerTrace, List.map_cons, List.cons_append, worker_cand]
      rw [workerTrace] at ih
      rw [ih, List.filter_cons]
      by_cases ha : check_prime a = true
      · simp [ha]
      · simp [ha]

/-! ### Interleaving theory: what the coordinator can receive -/

/-- A merge is a permutation of the concatenation of the producers' outputs. -/
theorem merge_perm {ls : List (List ROut)} {t : List ROut} (h : Merge ls t) :
    t.Perm ls.flatten := by
  induction h with
  | nil ls hls =>
      rw [List.flatten_eq_nil_iff.mpr hls]
  | cons pre post rest t x hm ih =>
      rw [List.flatten_append, List.flatten_cons] at ih ⊢
      rw [List.cons_append]
      exact (ih.cons x).trans List.perm_middle.symm

/-- A producer that emits nothing can be added in front of any merge. -/
theorem Merge.cons_nil {ls : List (List ROut)} {t : List ROut} (h : Merge ls t) :
    Merge ([] :: ls) t := by
  induction h with
  | nil ls hls =>
      refine Merge.nil _ ?_
      intro l hl
      rcases List.mem_cons.mp hl with h | h
      · exact h
      · exact hls l h
  | cons pre post rest t x hm ih =>
      exact Merge.cons ([] :: pre) post rest t x ih

/-- Sequential round-robin: concatenating the producers' outputs one after the
other is one possible interleaving (used to exhibit concrete runs). -/
theorem merge_flatten (ls : List (List ROut)) : Merge ls ls.flatten := by
  induction ls with
  | nil => exact Merge.nil [] (by intro l hl; cases hl)
  | cons l ls ih =>
      induction l with
      | nil => exact ih.cons_nil
      | cons x l ihl => exact Merge.cons [] ls l _ x ihl

theorem dones_append_cons (pre post : List (List ROut)) (m : List ROut) :
    dones (pre ++ m :: post) = dones pre + List.count ROut.done m + dones post := by
  simp [dones, List.sum_append]
  omega

theorem dones_all_nil {ls : List (List ROut)} (h : ∀ l ∈ ls, l = []) :
    dones ls = 0 := by
  rw [dones, List.sum_eq_zero_iff]
  intro x hx
  rcases List.mem_map.mp hx with ⟨l, hl, rfl⟩
  rw [h l hl]
  rfl

/-- A well-formed worker output (some primes, then one completion flag) with
no completion flag in it is empty. -/
theorem wf_eq_nil_of_count {l : List ROut}
    (hwf : l = [] ∨ ∃ ps, l = List.map ROut.prime ps ++ [ROut.done])
    (hc : List.count ROut.done l = 0) : l = [] := by
  rcases hwf with h | ⟨ps, rfl⟩
  · exact h
  · rw [List.count_append] at hc
    simp [List.count_cons] at hc

theorem count_done_le_dones {ls : List (List ROut)} {l : List ROut} (hl : l ∈ ls) :
    List.count ROut.done l ≤ dones ls :=
  List.le_sum_of_mem (List.mem_map_of_mem (List.count ROut.done) hl)

/-- If no producer has a completion flag left, a merge is over. -/
theorem merge_eq_nil_of_dones_zero {ls : List (List ROut)} {t : List ROut}
    (hm : Merge ls t)
    (hwf : ∀ l ∈ ls, l = [] ∨ ∃ ps, l = List.map ROut.prime ps ++ [ROut.done])
    (h0 : dones ls = 0) : t = [] := by
  have hnil : ∀ l ∈ ls, l = [] := by
    intro l hl
    refine wf_eq_nil_of_count (hwf l hl) ?_
    have := count_done_le_dones hl
    omega
  have hperm := merge_perm hm
  rw [List.flatten_eq_nil_iff.mpr hnil] at hperm
  exact hperm.eq_nil

theorem primesOf_nil : primesOf [] = [] := rfl

theorem primesOf_cons_done (t : List ROut) :
    primesOf (ROut.done :: t) = primesOf t := by
  simp [primesOf]

theorem primesOf_cons_prime (n : Nat) (t : List ROut) :
    primesOf (ROut.prime n :: t) = n :: primesOf t := by
  simp [primesOf]

/-- The central drain lemma: however the outputs of well-formed workers (some
primes, then exactly one completion flag) interleave on the result queue, the
drain loop terminates exactly when its counter reaches `W`, having collected
every prime of the trace. -/
theorem drainLoop_merge {ls : List (List ROut)} {t : List ROut} (hm : Merge ls t) :
    ∀ W c (acc : List Nat),
      (∀ l ∈ ls, l = [] ∨ ∃ ps, l = List.map ROut.prime ps ++ [ROut.done]) →
      c + dones ls = W → 0 < dones ls →
      drainLoop t W c acc = some (W, acc ++ primesOf t) := by
  induction hm with
  | nil ls hls =>
      intro W c acc hwf hinv hpos
      rw [dones_all_nil hls] at hpos
      exact absurd hpos (by omega)
  | cons pre post rest t x hm ih =>
      intro W c acc hwf hinv hpos
      have hmem : (x :: rest) ∈ pre ++ (x :: rest) :: post :=
        List.mem_append_right _ (List.mem_cons_self _ _)
      have hwfpre : ∀ l ∈ pre, l = [] ∨ ∃ ps, l = List.map ROut.prime ps ++ [ROut.done] :=
        fun l hl => hwf l (List.mem_append_left _ hl)
      have hwfpost : ∀ l ∈ post, l = [] ∨ ∃ ps, l = List.map ROut.prime ps ++ [ROut.done] :=
        fun l hl => hwf l (List.mem_append_right _ (List.mem_cons_of_mem _ hl))
      rcases hwf _ hmem with hx | ⟨ps, hps⟩
      · exact absurd hx (by simp)
      · cases ps with
        | nil =>
            simp only [List.map_nil, List.nil_append] at hps
            have hx : x = ROut.done := by injection hps
            have hrest : rest = [] := by injection hps with h1 h2
            subst hx
            subst hrest
            have hwf' : ∀ l ∈ pre ++ ([] : List ROut) :: post,
                l = [] ∨ ∃ ps, l = List.map ROut.prime ps ++ [ROut.done] := by
              intro l hl
              rcases List.mem_append.mp hl with h | h
              · exact hwfpre l h
              · rcases List.mem_cons.mp h with h | h
                · exact Or.inl h
                · exact hwfpost l h
            have hcnt1 : List.count ROut.done [ROut.done] = 1 := by decide
            have hcnt0 : List.count ROut.done ([] : List ROut) = 0 := by decide
            have hd1 : dones (pre ++ [ROut.done] :: post) = dones pre + 1 + dones post := by
              rw [dones_append_cons, hcnt1]
            have hd0 : dones (pre ++ ([] : List ROut) :: post) = dones pre + 0 + dones post := by
              rw [dones_append_cons, hcnt0]
            rw [hd1] at hinv
            rw [drainLoop]
            by_cases hc : c + 1 = W
            · rw [if_pos hc]
              have hz : dones (pre ++ ([] : List ROut) :: post) = 0 := by
                rw [hd0]; omega
              have ht : t = [] := merge_eq_nil_of_dones_zero hm hwf' hz
              subst ht
              rw [primesOf_cons_done, primesOf_nil, List.append_nil, hc]
            · rw [if_neg hc]
              have hpos' : 0 < dones (pre ++ ([] : List ROut) :: post) := by
                rw [hd0]; omega
              have hinv' : (c + 1) + dones (pre ++ ([] : List ROut) :: post) = W := by
                rw [hd0]; omega
              rw [ih W (c + 1) acc hwf' hinv' hpos', primesOf_cons_done]
        | cons p ps' =>
            simp only [List.map_cons, List.cons_append] at hps
            have hx : x = ROut.prime p := by injection hps
            have hrest : rest = List.map ROut.prime ps' ++ [ROut.done] := by
              injection hps with h1 h2
            subst hx
            have hd : dones (pre ++ (ROut.prime p :: rest) :: post)
                = dones (pre ++ rest :: post) := by
              rw [dones_append_cons, dones_append_cons, List.count_cons]
              simp
            have hwf' : ∀ l ∈ pre ++ rest :: post,
                l = [] ∨ ∃ ps, l = List.map ROut.prime ps ++ [ROut.done] := by
              intro l hl
              rcases List.mem_append.mp hl with h | h
              · exact hwfpre l h
              · rcases List.mem_cons.mp h with h | h
                · subst h
                  exact Or.inr ⟨ps', hrest⟩
                · exact hwfpost l h
            rw [hd] at hinv hpos
            rw [drainLoop, ih W c (acc ++ [p]) hwf' hinv hpos, primesOf_cons_prime]
            simp

theorem count_done_workerTrace (l : List Nat) :
    List.count ROut.done (workerTrace l) = 1 := by
  rw [workerTrace_eq, List.count_append]
  have h1 : List.count ROut.done (List.map ROut.prime (l.filter check_prime)) = 0 := by
    rw [List.count_eq_zero]
    simp
  rw [h1]
  decide

theorem dones_workerTraces (sched : List (List Nat)) :
    dones (sched.map workerTrace) = sched.length := by
  rw [dones, List.map_map]
  have h : (List.count ROut.done ∘ workerTrace) = fun _ : List Nat => 1 :=
    funext fun l => count_done_workerTrace l
  rw [h]
  induction sched with
  | nil => rfl
  | cons a sched ih =>
      simp [ih]
      omega

theorem primesOf_workerTrace (l : List Nat) :
    primesOf (workerTrace l) = l.filter check_prime := by
  rw [workerTrace_eq, primesOf, List.filterMap_append, List.filterMap_map]
  have h : ((fun r => match r with | ROut.prime n => some n | ROut.done => none)
      ∘ ROut.prime) = some := funext fun n => rfl
  rw [h, List.filterMap_some]
  simp

/-- Whatever interleaving the result queue delivers, the primes received are a
permutation of the serial result over the same range. -/
theorem primesOf_perm_serial {lo hi : Nat} {sched : List (List Nat)} {t : List ROut}
    (hperm : sched.flatten.Perm (number_range lo hi))
    (hm : Merge (sched.map workerTrace) t) :
    (primesOf t).Perm (serial_primes lo hi) := by
  have h1 : (primesOf t).Perm (primesOf ((sched.map workerTrace).flatten)) :=
    (merge_perm hm).filterMap _
  have h2 : primesOf ((sched.map workerTrace).flatten)
      = (sched.flatten).filter check_prime := by
    rw [primesOf, List.filterMap_flatten, List.map_map]
    have h : (List.filterMap
          (fun r => match r with | ROut.prime n => some n | ROut.done => none)
        ∘ workerTrace) = fun l : List Nat => l.filter check_prime :=
      funext fun l => primesOf_workerTrace l
    rw [h, ← List.filter_flatten]
  rw [h2] at h1
  exact h1.trans (hperm.filter check_prime)

/-- Every run of the pipeline drains to completion with counter exactly `W`,
collecting a permutation of the serial result. -/
theorem pipeline_run_drain {lo hi W : Nat} {sched : List (List Nat)} {t : List ROut}
    (hrun : PipelineRun lo hi W sched t) (hW : 0 < W) :
    drainLoop t W 0 [] = some (W, primesOf t) ∧
      (primesOf t).Perm (serial_primes lo hi) := by
  obtain ⟨hlen, hperm, hm⟩ := hrun
  have hwf : ∀ l ∈ sched.map workerTrace,
      l = [] ∨ ∃ ps, l = List.map ROut.prime ps ++ [ROut.done] := by
    intro l hl
    rcases List.mem_map.mp hl with ⟨a, ha, rfl⟩
    exact Or.inr ⟨a.filter check_prime, workerTrace_eq a⟩
  have hdones : dones (sched.map workerTrace) = W := by
    rw [dones_workerTraces, hlen]
  have h := drainLoop_merge hm W 0 [] hwf (by omega) (by omega)
  rw [List.nil_append] at h
  exact ⟨h, primesOf_perm_serial hperm hm⟩

/-! ### Characterizing the trial division -/

theorem mem_trial_divisors {n i : Nat} :
    i ∈ trial_divisors n ↔ 3 ≤ i ∧ i ≤ Nat.sqrt n ∧ i % 2 = 1 := by
  rw [trial_divisors, isqrt_eq_sqrt, List.mem_range']
  constructor
  · rintro ⟨k, hk, rfl⟩
    omega
  · rintro ⟨h3, hle, hodd⟩
    exact ⟨(i - 3) / 2, by omega, by omega⟩

/-- What `check_prime` accepts: odd numbers with no odd divisor between 3 and
the integer square root. -/
theorem check_prime_iff (n : Nat) :
    check_prime n = true ↔
      n % 2 = 1 ∧ ∀ i, 3 ≤ i → i ≤ Nat.sqrt n → i % 2 = 1 → ¬ i ∣ n := by
  rw [check_prime]
  by_cases h2 : (n % 2 == 0) = true
  · have h2' : n % 2 = 0 := by simpa using h2
    simp only [h2, if_true]
    constructor
    · intro h
      exact absurd h (by simp)
    · rintro ⟨h, -⟩
      omega
  · have h2' : n % 2 = 1 := by
      have := h2
      simp only [beq_iff_eq] at this
      omega
    rw [if_neg h2, List.all_eq_true]
    constructor
    · intro h
      refine ⟨h2', ?_⟩
      intro i h3 hle hoddi hdvd
      have hi : i ∈ trial_divisors n := mem_trial_divisors.mpr ⟨h3, hle, hoddi⟩
      have hne := h i hi
      simp only [bne_iff_ne, ne_eq] at hne
      exact hne (Nat.dvd_iff_mod_eq_zero.mp hdvd)
    · rintro ⟨-, h⟩ i hi
      rcases mem_trial_divisors.mp hi with ⟨h3, hle, hoddi⟩
      simp only [bne_iff_ne, ne_eq]
      intro hmod
      exact h i h3 hle hoddi (Nat.dvd_iff_mod_eq_zero.mpr hmod)

/-- C2: for every popped item, a stop flag makes the worker emit exactly one
completion flag and terminate, consuming and emitting nothing further; a
candidate is forwarded to the result queue exactly when it is odd and no odd
divisor up to its integer square root divides it, and is dropped otherwise. -/
theorem claim_C2 :
    (∀ rest : List WItem, worker (WItem.stop :: rest) = [ROut.done]) ∧
    (∀ (n : Nat) (rest : List WItem),
      (worker (WItem.cand n :: rest) = ROut.prime n :: worker rest ↔
        n % 2 = 1 ∧ ∀ i, 3 ≤ i → i ≤ Nat.sqrt n → i % 2 = 1 → ¬ i ∣ n) ∧
      (worker (WItem.cand n :: rest) = worker rest ↔
        ¬ (n % 2 = 1 ∧ ∀ i, 3 ≤ i → i ≤ Nat.sqrt n → i % 2 = 1 → ¬ i ∣ n))) := by
  refine ⟨fun rest => rfl, fun n rest => ?_⟩
  rw [worker_cand, ← check_prime_iff]
  by_cases h : check_prime n = true
  · rw [if_pos h, List.singleton_append]
    exact ⟨⟨fun _ => h, fun _ => rfl⟩,
      ⟨fun habs => absurd (congrArg List.length habs) (by simp),
       fun habs => absurd h habs⟩⟩
  · rw [if_neg h, List.nil_append]
    exact ⟨⟨fun habs => absurd (congrArg List.length habs) (by simp),
       fun hc => absurd hc h⟩,
      ⟨fun _ => h, fun _ => rfl⟩⟩

/-- C9: under Python equality an `int` never equals either reserved
byte-string flag, and the two flags differ, so no candidate is mistaken for
the stop sentinel and no confirmed prime for the worker-done sentinel. -/
theorem claim_C9 :
    (∀ n : Nat, pyEq (QVal.int n) FLAG_ALL_DONE = false) ∧
    (∀ n : Nat, pyEq (QVal.int n) FLAG_WORKER_FINISHED_PROCESSING = false) ∧
    FLAG_ALL_DONE ≠ FLAG_WORKER_FINISHED_PROCESSING :=
  ⟨fun _ => rfl, fun _ => rfl, by decide⟩

/-- C10: `check_prime` deviates from mathematical primality exactly at the
edges: it accepts 1 (not a prime) and rejects every even number including the
prime 2; on odd `n ≥ 3` it agrees with `Nat.Prime`. -/
theorem claim_C10 :
    (check_prime 1 = true ∧ ¬ Nat.Prime 1) ∧
    (∀ n : Nat, n % 2 = 0 → check_prime n = false) ∧
    (check_prime 2 = false ∧ Nat.Prime 2) ∧
    (∀ n : Nat, 3 ≤ n → n % 2 = 1 → (check_prime n = true ↔ Nat.Prime n)) := by
  refine ⟨⟨by decide, by decide⟩, ?_, ⟨by decide, by norm_num⟩, ?_⟩
  · intro n hn
    rw [check_prime]
    simp [hn]
  · intro n h3 hodd
    rw [check_prime_iff]
    constructor
    · rintro ⟨-, h⟩
      by_contra hnp
      have hm : n.minFac.Prime := Nat.minFac_prime (by omega)
      have hmd : n.minFac ∣ n := Nat.minFac_dvd n
      have hmsq : n.minFac ^ 2 ≤ n := Nat.minFac_sq_le_self (by omega) hnp
      have hmle : n.minFac ≤ Nat.sqrt n := by
        rw [Nat.le_sqrt]
        calc n.minFac * n.minFac = n.minFac ^ 2 := by ring
          _ ≤ n := hmsq
      have hm2 : n.minFac ≠ 2 := by
        intro h2
        rw [h2] at hmd
        rcases hmd with ⟨k, hk⟩
        omega
      have hm3 : 3 ≤ n.minFac := by
        have := hm.two_le
        omega
      have hmodd : n.minFac % 2 = 1 := by
        rcases Nat.mod_two_eq_zero_or_one n.minFac with h | h
        · exfalso
          have h2d : 2 ∣ n.minFac := Nat.dvd_of_mod_eq_zero h
          have : 2 ∣ n := h2d.trans hmd
          rcases this with ⟨k, hk⟩
          omega
        · exact h
      exact h n.minFac hm3 hmle hmodd hmd
    · intro hp
      refine ⟨hodd, ?_⟩
      intro i h3i hle hoddi hdvd
      rcases (Nat.Prime.eq_one_or_self_of_dvd hp i hdvd) with h | h
      · omega
      · have : Nat.sqrt n < n := Nat.sqrt_lt_self (by omega)
        omega

/-- Concrete instances of the `claim_C10` statements. -/
theorem claim_C10_witness :
    check_prime 4 = false ∧ (check_prime 7 = true ↔ Nat.Prime 7) :=
  ⟨claim_C10.2.1 4 (by decide), claim_C10.2.2.2 7 (by decide) (by decide)⟩

/-- C3: the coordinator enqueues every candidate of the range in ascending
order, then exactly `W` stop flags, one per worker; in the resulting queue no
stop flag precedes any candidate. -/
theorem claim_C3 (lo hi W : Nat) :
    List.Pairwise (· < ·) (number_range lo hi) ∧
    possible_primes_queue lo hi W =
      (number_range lo hi).map WItem.cand ++ List.replicate W WItem.stop ∧
    List.count WItem.stop (possible_primes_queue lo hi W) = W ∧
    (∀ i j : Nat, i < j → (possible_primes_queue lo hi W)[i]? = some WItem.stop →
      ∀ n : Nat, (possible_primes_queue lo hi W)[j]? ≠ some (WItem.cand n)) := by
  refine ⟨List.pairwise_lt_range' lo (hi - lo), rfl, ?_, ?_⟩
  · rw [possible_primes_queue, List.count_append, List.count_replicate_self]
    have h0 : List.count WItem.stop ((number_range lo hi).map WItem.cand) = 0 := by
      rw [List.count_eq_zero]
      simp
    rw [h0]
    omega
  · intro i j hij hstop n
    set c := (number_range lo hi).map WItem.cand with hc
    have hlen : i ≥ c.length := by
      by_contra hlt
      push_neg at hlt
      rw [possible_primes_queue, ← hc, List.getElem?_append_left hlt] at hstop
      rw [hc, List.getElem?_map] at hstop
      cases hmm : (number_range lo hi)[i]? with
      | none => rw [hmm] at hstop; cases hstop
      | some v => rw [hmm] at hstop; cases hstop
    intro hj
    rw [possible_primes_queue, ← hc,
      List.getElem?_append_right (by omega : c.length ≤ j)] at hj
    rw [List.getElem?_replicate] at hj
    by_cases hlt : j - c.length < W
    · rw [if_pos hlt] at hj
      cases hj
    · rw [if_neg hlt] at hj
      cases hj

/-- C1: for every range `[lo, hi)` and worker count `W ∈ {1, 2, 4, 8}`, every
run of the queue pipeline makes the coordinator accumulate exactly the set of
candidates that the sequential trial-division loop accepts. -/
theorem claim_C1 (lo hi W : Nat) (sched : List (List Nat)) (t : List ROut)
    (hW : W = 1 ∨ W = 2 ∨ W = 4 ∨ W = 8)
    (hrun : PipelineRun lo hi W sched t) :
    ∃ ps, drainLoop t W 0 [] = some (W, ps) ∧
      ps.toFinset = (serial_primes lo hi).toFinset := by
  have hpos : 0 < W := by rcases hW with rfl | rfl | rfl | rfl <;> decide
  obtain ⟨hd, hperm⟩ := pipeline_run_drain hrun hpos
  exact ⟨primesOf t, hd, List.toFinset_eq_of_perm _ _ hperm⟩

/-- Concrete run for `claim_C1`: range [10, 20), two workers splitting the
range in half, outputs arriving worker after worker. -/
theorem claim_C1_witness :
    ∃ ps,
      drainLoop ((([[10, 11, 12, 13, 14], [15, 16, 17, 18, 19]] :
          List (List Nat)).map workerTrace).flatten) 2 0 [] = some (2, ps) ∧
      ps.toFinset = (serial_primes 10 20).toFinset :=
  claim_C1 10 20 2 [[10, 11, 12, 13, 14], [15, 16, 17, 18, 19]] _
    (Or.inr (Or.inl rfl)) ⟨rfl, by decide, merge_flatten _⟩

theorem dones_of_wf : ∀ ls : List (List ROut),
    (∀ l ∈ ls, ∃ ps, l = List.map ROut.prime ps ++ [ROut.done]) →
    dones ls = ls.length := by
  intro ls
  induction ls with
  | nil => intro h; rfl
  | cons a ls ih =>
      intro h
      rcases h a (List.mem_cons_self a ls) with ⟨ps, rfl⟩
      have hcount : List.count ROut.done (List.map ROut.prime ps ++ [ROut.done]) = 1 := by
        rw [List.count_append]
        have h1 : List.count ROut.done (List.map ROut.prime ps) = 0 := by
          rw [List.count_eq_zero]
          simp
        rw [h1]
        decide
      have hrest := ih fun l hl => h l (List.mem_cons_of_mem _ hl)
      rw [dones] at hrest ⊢
      simp only [List.map_cons, List.sum_cons, hcount, hrest, List.length_cons]
      omega

/-- C4: if each of the `W` workers puts some primes and then exactly one
completion flag on the result queue, then whatever the interleaving, the
coordinator's drain loop terminates with the finished-worker counter exactly
`W` — which is precisely what the final assert demands. -/
theorem claim_C4 (W : Nat) (ls : List (List ROut)) (t : List ROut)
    (hW : 0 < W) (hlen : ls.length = W)
    (hwf : ∀ l ∈ ls, ∃ ps, l = List.map ROut.prime ps ++ [ROut.done])
    (hm : Merge ls t) :
    ∃ ps, drainLoop t W 0 [] = some (W, ps) := by
  have hd : dones ls = W := by rw [dones_of_wf ls hwf, hlen]
  have h := drainLoop_merge hm W 0 [] (fun l hl => Or.inr (hwf l hl)) (by omega) (by omega)
  exact ⟨primesOf t, by rw [h, List.nil_append]⟩

/-- Concrete run for `claim_C4`: one worker that found no primes. -/
theorem claim_C4_witness :
    ∃ ps, drainLoop [ROut.done] 1 0 [] = some (1, ps) :=
  claim_C4 1 [[ROut.done]] [ROut.done] (by decide) rfl
    (by
      intro l hl
      rw [List.mem_singleton] at hl
      subst hl
      exact ⟨[], rfl⟩)
    (merge_flatten [[ROut.done]])

/-- C8: two runs of the pipeline on the same range and worker count — however
differently the work is distributed and the results interleave — produce the
same set of primes. -/
theorem claim_C8 (lo hi W : Nat) (sched1 sched2 : List (List Nat))
    (t1 t2 : List ROut) (hW : 0 < W)
    (h1 : PipelineRun lo hi W sched1 t1) (h2 : PipelineRun lo hi W sched2 t2) :
    ∃ ps1 ps2, drainLoop t1 W 0 [] = some (W, ps1) ∧
      drainLoop t2 W 0 [] = some (W, ps2) ∧ ps1.toFinset = ps2.toFinset := by
  obtain ⟨hd1, hp1⟩ := pipeline_run_drain h1 hW
  obtain ⟨hd2, hp2⟩ := pipeline_run_drain h2 hW
  exact ⟨primesOf t1, primesOf t2, hd1, hd2,
    List.toFinset_eq_of_perm _ _ (hp1.trans hp2.symm)⟩

/-- Concrete runs for `claim_C8`: the same range distributed two different
ways between two workers. -/
theorem claim_C8_witness :
    ∃ ps1 ps2,
      drainLoop ((([[10, 11, 12, 13, 14], [15, 16, 17, 18, 19]] :
          List (List Nat)).map workerTrace).flatten) 2 0 [] = some (2, ps1) ∧
      drainLoop ((([[11, 13, 15, 17, 19], [10, 12, 14, 16, 18]] :
          List (List Nat)).map workerTrace).flatten) 2 0 [] = some (2, ps2) ∧
      ps1.toFinset = ps2.toFinset :=
  claim_C8 10 20 2 [[10, 11, 12, 13, 14], [15, 16, 17, 18, 19]]
    [[11, 13, 15, 17, 19], [10, 12, 14, 16, 18]] _ _ (by decide)
    ⟨rfl, by decide, merge_flatten _⟩ ⟨rfl, by decide, merge_flatten _⟩

/-! ### The corrected claims: boundary at 2, the 10^8 scenario, validation -/

set_option maxRecDepth 4000

/-- The serial loop on `[10^8, 10^8 + 50)`: four primes, not three — the
range's own output in the notebook lists `100000049` as its fourth prime. -/
theorem serial_primes_1e8 :
    serial_primes 100000000 100000050
      = [100000007, 100000037, 100000039, 100000049] := by
  rw [serial_primes, check_prime_eq_fast]
  decide

/-- C5 counterexample: on the range `[2, 4)` with one worker (the unique FIFO
run) the pipeline returns `[3]`: the prime 2 is NOT in the result, contrary to
the claim that a range starting at `lo = 2` includes 2. -/
theorem claim_C5_counterexample :
    PipelineRun 2 4 1 [[2, 3]]
      ((([[2, 3]] : List (List Nat)).map workerTrace).flatten) ∧
    drainLoop ((([[2, 3]] : List (List Nat)).map workerTrace).flatten) 1 0 []
      = some (1, [3]) ∧
    (2 ∉ ([3] : List Nat)) :=
  ⟨⟨rfl, by decide, merge_flatten _⟩, by decide, by decide⟩

/-- C5 amended: a range starting at `lo = 2` EXCLUDES 2 (`check_prime` rejects
every even number, 2 included); a range of non-primes such as `[24, 28)`
yields an empty result; with `W = 1` the result set equals the sequential
computation, the sentinel protocol intact. -/
theorem claim_C5_amended :
    (∀ hi W sched t, 0 < W → PipelineRun 2 hi W sched t →
      ∃ ps, drainLoop t W 0 [] = some (W, ps) ∧ 2 ∉ ps) ∧
    (∀ W sched t, 0 < W → PipelineRun 24 28 W sched t →
      drainLoop t W 0 [] = some (W, [])) ∧
    (∀ lo hi sched t, PipelineRun lo hi 1 sched t →
      ∃ ps, drainLoop t 1 0 [] = some (1, ps) ∧
        ps.toFinset = (serial_primes lo hi).toFinset) := by
  refine ⟨?_, ?_, ?_⟩
  · intro hi W sched t hW hrun
    obtain ⟨hd, hperm⟩ := pipeline_run_drain hrun hW
    refine ⟨primesOf t, hd, ?_⟩
    intro hmem
    have h2 : 2 ∈ serial_primes 2 hi := hperm.mem_iff.mp hmem
    rw [serial_primes, List.mem_filter] at h2
    exact absurd h2.2 (by decide)
  · intro W sched t hW hrun
    obtain ⟨hd, hperm⟩ := pipeline_run_drain hrun hW
    rw [show serial_primes 24 28 = [] by decide] at hperm
    rw [hd, hperm.eq_nil]
  · intro lo hi sched t hrun
    obtain ⟨hd, hperm⟩ := pipeline_run_drain hrun (by decide)
    exact ⟨primesOf t, hd, List.toFinset_eq_of_perm _ _ hperm⟩

/-- Concrete run for `claim_C5_amended`. -/
theorem claim_C5_amended_witness :
    ∃ ps, drainLoop ((([[2, 3]] : List (List Nat)).map workerTrace).flatten) 1 0 []
        = some (1, ps) ∧ 2 ∉ ps :=
  claim_C5_amended.1 4 1 [[2, 3]] _ (by decide) ⟨rfl, by decide, merge_flatten _⟩

/-- C6 counterexample: a run of the pipeline on `[10^8, 10^8 + 50)` with four
workers returns `100000049` among its primes, so the result set is NOT the
claimed `{100000007, 100000037, 100000039}`. -/
theorem claim_C6_counterexample :
    PipelineRun 100000000 100000050 4
      [number_range 100000000 100000050, [], [], []]
      ((([number_range 100000000 100000050, [], [], []] :
        List (List Nat)).map workerTrace).flatten) ∧
    drainLoop ((([number_range 100000000 100000050, [], [], []] :
        List (List Nat)).map workerTrace).flatten) 4 0 [] =
      some (4, [100000007, 100000037, 100000039, 100000049]) ∧
    (100000049 ∈ ([100000007, 100000037, 100000039, 100000049] : List Nat)) ∧
    100000049 ∉ ({100000007, 100000037, 100000039} : Finset Nat) := by
  have h1 : workerTrace (number_range 100000000 100000050)
      = List.map ROut.prime [100000007, 100000037, 100000039, 100000049]
        ++ [ROut.done] := by
    rw [workerTrace_eq, show (number_range 100000000 100000050).filter check_prime
      = [100000007, 100000037, 100000039, 100000049] from serial_primes_1e8]
  have hft : (([number_range 100000000 100000050, [], [], []] :
      List (List Nat)).map workerTrace).flatten
      = List.map ROut.prime [100000007, 100000037, 100000039, 100000049]
        ++ [ROut.done, ROut.done, ROut.done, ROut.done] := by
    rw [List.map_cons, List.map_cons, List.map_cons, List.map_cons, List.map_nil,
      show workerTrace [] = [ROut.done] from rfl, h1,
      List.flatten_cons, List.flatten_cons, List.flatten_cons, List.flatten_cons,
      List.flatten_nil]
    simp
  have hfl : ([number_range 100000000 100000050, [], [], []] :
      List (List Nat)).flatten = number_range 100000000 100000050 := by
    simp
  refine ⟨⟨rfl, ?_, merge_flatten _⟩, ?_, by decide, by decide⟩
  · rw [hfl]
  · rw [hft]
    decide

/-- C6 amended: the pipeline on `[10^8, 10^8 + 50)` with `W = 4` yields the
set `{100000007, 100000037, 100000039, 100000049}` (the claim omitted the
fourth prime) with the finished-worker counter 4; on `[10, 20)` with `W = 2`
it yields `{11, 13, 17, 19}` as claimed. -/
theorem claim_C6_amended :
    (∀ sched t, PipelineRun 100000000 100000050 4 sched t →
      ∃ ps, drainLoop t 4 0 [] = some (4, ps) ∧
        ps.toFinset =
          ({100000007, 100000037, 100000039, 100000049} : Finset Nat)) ∧
    (∀ sched t, PipelineRun 10 20 2 sched t →
      ∃ ps, drainLoop t 2 0 [] = some (2, ps) ∧
        ps.toFinset = ({11, 13, 17, 19} : Finset Nat)) := by
  constructor
  · intro sched t hrun
    obtain ⟨hd, hperm⟩ := pipeline_run_drain hrun (by decide)
    refine ⟨primesOf t, hd, ?_⟩
    rw [List.toFinset_eq_of_perm _ _ hperm, serial_primes_1e8]
    decide
  · intro sched t hrun
    obtain ⟨hd, hperm⟩ := pipeline_run_drain hrun (by decide)
    refine ⟨primesOf t, hd, ?_⟩
    rw [List.toFinset_eq_of_perm _ _ hperm,
      show serial_primes 10 20 = [11, 13, 17, 19] by decide]
    decide

/-- Concrete run for `claim_C6_amended`. -/
theorem claim_C6_amended_witness :
    ∃ ps, drainLoop ((([[10, 12, 14, 16, 18], [11, 13, 15, 17, 19]] :
        List (List Nat)).map workerTrace).flatten) 2 0 [] = some (2, ps) ∧
      ps.toFinset = ({11, 13, 17, 19} : Finset Nat) :=
  claim_C6_amended.2 [[10, 12, 14, 16, 18], [11, 13, 15, 17, 19]] _
    ⟨rfl, by decide, merge_flatten _⟩

/-- With `W = 0` (zero workers) the coordinator's drain loop can never reach
its exit condition: the counter check `cnt + 1 = 0` never succeeds, so the
loop consumes the whole queue and then blocks forever. -/
theorem drainLoop_zero_workers :
    ∀ (t : List ROut) (c : Nat) (acc : List Nat), drainLoop t 0 c acc = none := by
  intro t
  induction t with
  | nil => intro c acc; rfl
  | cons x rest ih =>
      intro c acc
      cases x with
      | done =>
          rw [drainLoop, if_neg (by omega)]
          exact ih (c + 1) acc
      | prime n =>
          rw [drainLoop]
          exact ih c (acc ++ [n])

/-- C7 counterexample: on the malformed input `lo = 5, hi = 5` (empty range)
with `W = 2` — which the claim says is rejected before any queue is created —
the coordinator still performs queue operations: it enqueues two stop flags. -/
theorem claim_C7_counterexample :
    possible_primes_queue 5 5 2 = [WItem.stop, WItem.stop] ∧
    possible_primes_queue 5 5 2 ≠ [] := by
  exact ⟨by decide, by decide⟩

/-- C7 amended: the coordinator performs no input validation.  On an empty or
reversed range it still creates the queues and enqueues the `W` stop flags,
and the pipeline completes normally with an empty result; with a zero worker
count the drain loop never terminates (deadlock), producing no result. -/
theorem claim_C7_amended :
    (∀ lo hi W, hi ≤ lo →
      possible_primes_queue lo hi W = List.replicate W WItem.stop) ∧
    (∀ lo hi W sched t, hi ≤ lo → 0 < W → PipelineRun lo hi W sched t →
      drainLoop t W 0 [] = some (W, [])) ∧
    (∀ (t : List ROut) (c : Nat) (acc : List Nat), drainLoop t 0 c acc = none) := by
  refine ⟨?_, ?_, drainLoop_zero_workers⟩
  · intro lo hi W h
    have h0 : hi - lo = 0 := by omega
    rw [possible_primes_queue, number_range, h0]
    rfl
  · intro lo hi W sched t hle hW hrun
    obtain ⟨hd, hperm⟩ := pipeline_run_drain hrun hW
    have hser : serial_primes lo hi = [] := by
      rw [serial_primes, number_range, show hi - lo = 0 by omega]
      rfl
    rw [hser] at hperm
    rw [hd, hperm.eq_nil]

/-- Concrete instances of `claim_C7_amended`. -/
theorem claim_C7_amended_witness :
    possible_primes_queue 7 3 2 = List.replicate 2 WItem.stop ∧
    drainLoop ((([([] : List Nat)] : List (List Nat)).map workerTrace).flatten) 1 0 []
      = some (1, []) ∧
    drainLoop [] 0 0 [] = none :=
  ⟨claim_C7_amended.1 7 3 2 (by decide),
   claim_C7_amended.2.1 5 5 1 [[]] _ (by decide) (by decide)
     ⟨rfl, by decide, merge_flatten _⟩,
   claim_C7_amended.2.2 [] 0 []⟩

end PrimePipeline
